import Mathlib

/-!
Shallow embedding of `IntelligentStudyPlanner.py` (the study-planner CLI).

Modelling conventions:
* Calendar dates are integer day numbers (`Int`); Python's
  `datetime.timedelta(days=1)` arithmetic becomes `+ 1`, `(b - a).days`
  becomes `b - a`.  Date-string parsing (`datetime.strptime`) is an external
  library call and is passed as an oracle `String → Option Int`
  (`none` models the `ValueError` branch).  Likewise Python's `int(...)`
  on the marks token is an oracle `String → Option Int`.
* Times of day are rationals (hours since midnight); `block_hours` is a
  Python float entered by the user, modelled as `ℚ`, and
  `timedelta(minutes=break_minutes)` becomes `break_minutes / 60` hours.
* Python dicts keyed by subject name become association lists with
  overwrite-in-place insertion (`dictInsert`), matching dict semantics:
  an existing key keeps its position, a new key is appended.
* The unbounded `while` loop of the timetable builder is modelled with an
  explicit fuel parameter; all safety invariants are proved for every fuel.
-/

set_option maxHeartbeats 1600000

namespace StudyPlanner

/-- A subject record, as built by `add_subject_command`:
`{"name": ..., "difficulty": ..., "deadline": ..., "marks": ...}`. -/
structure Subject where
  name : String
  difficulty : Int
  deadline : Int
  marks : Int
deriving DecidableEq, Repr

/-! ### Clash resolver: `rearrange_schedule` -/

theorem length_filter_succ_lt (used : List Int) (d : Int) (h : d ∈ used) :
    (used.filter (fun x => decide (d + 1 ≤ x))).length <
      (used.filter (fun x => decide (d ≤ x))).length := by
  induction used with
  | nil => cases h
  | cons a l ih =>
    rcases List.mem_cons.mp h with heq | hmem
    · subst heq
      rw [List.filter_cons_of_neg (by simp), List.filter_cons_of_pos (by simp)]
      simp only [List.length_cons]
      have hsub : List.Sublist (l.filter (fun x => decide (d + 1 ≤ x)))
          (l.filter (fun x => decide (d ≤ x))) := by
        refine List.monotone_filter_right l ?_
        intro x hx
        simp only [decide_eq_true_eq] at hx ⊢
        omega
      exact Nat.lt_succ_of_le hsub.length_le
    · have ihm := ih hmem
      by_cases hc : d + 1 ≤ a
      · have hc' : d ≤ a := by omega
        rw [List.filter_cons_of_pos (by simpa using hc),
          List.filter_cons_of_pos (by simpa using hc')]
        simpa using Nat.succ_lt_succ ihm
      · by_cases hc' : d ≤ a
        · rw [List.filter_cons_of_neg (by simpa using hc),
            List.filter_cons_of_pos (by simpa using hc')]
          simp only [List.length_cons]
          omega
        · rw [List.filter_cons_of_neg (by simpa using hc),
            List.filter_cons_of_neg (by simpa using hc')]
          exact ihm

/-- Models the body `d = s['deadline']; while d in used: d += timedelta(days=1)`
inside `rearrange_schedule`. -/
def nextFree (used : List Int) (d : Int) : Int :=
  if h : d ∈ used then nextFree used (d + 1) else d
termination_by (used.filter (fun x => decide (d ≤ x))).length
decreasing_by exact length_filter_succ_lt used d h

theorem nextFree_spec (used : List Int) :
    ∀ (n : Nat) (d : Int), (used.filter (fun x => decide (d ≤ x))).length ≤ n →
      d ≤ nextFree used d ∧ nextFree used d ∉ used := by
  intro n
  induction n with
  | zero =>
    intro d hle
    have hnot : d ∉ used := by
      intro hmem
      have : d ∈ used.filter (fun x => decide (d ≤ x)) :=
        List.mem_filter.mpr ⟨hmem, by simp⟩
      have := List.length_pos.mpr (List.ne_nil_of_mem this)
      omega
    rw [nextFree, dif_neg hnot]
    exact ⟨le_refl d, hnot⟩
  | succ n ih =>
    intro d hle
    by_cases h : d ∈ used
    · rw [nextFree, dif_pos h]
      have hlt := length_filter_succ_lt used d h
      obtain ⟨h1, h2⟩ := ih (d + 1) (by omega)
      exact ⟨by omega, h2⟩
    · rw [nextFree, dif_neg h]
      exact ⟨le_refl d, h⟩

theorem nextFree_ge (used : List Int) (d : Int) : d ≤ nextFree used d :=
  (nextFree_spec used _ d (le_refl _)).1

theorem nextFree_not_mem (used : List Int) (d : Int) : nextFree used d ∉ used :=
  (nextFree_spec used _ d (le_refl _)).2

theorem nextFree_of_not_mem (used : List Int) (d : Int) (h : d ∉ used) :
    nextFree used d = d := by
  rw [nextFree, dif_neg h]

/-- Insertion into a list sorted by `le`; used to model Python's stable
`sorted(..., key=...)` by sorting index-value pairs by a linear order. -/
def insertLe {α : Type} (le : α → α → Prop) [DecidableRel le] (x : α) :
    List α → List α
  | [] => [x]
  | y :: ys => if le x y then x :: y :: ys else y :: insertLe le x ys

def sortLe {α : Type} (le : α → α → Prop) [DecidableRel le] : List α → List α
  | [] => []
  | x :: xs => insertLe le x (sortLe le xs)

theorem insertLe_perm {α : Type} (le : α → α → Prop) [DecidableRel le]
    (x : α) (l : List α) : List.Perm (insertLe le x l) (x :: l) := by
  induction l with
  | nil => exact List.Perm.refl _
  | cons y ys ih =>
    rw [insertLe]
    by_cases h : le x y
    · rw [if_pos h]
    · rw [if_neg h]
      exact List.Perm.trans (List.Perm.cons y ih) (List.Perm.swap x y ys)

theorem sortLe_perm {α : Type} (le : α → α → Prop) [DecidableRel le]
    (l : List α) : List.Perm (sortLe le l) l := by
  induction l with
  | nil => exact List.Perm.refl _
  | cons x xs ih =>
    exact List.Perm.trans (insertLe_perm le x (sortLe le xs)) (List.Perm.cons x ih)

theorem insertLe_pairwise {α : Type} (le : α → α → Prop) [DecidableRel le]
    (htot : ∀ a b, le a b ∨ le b a) (htrans : ∀ a b c, le a b → le b c → le a c)
    (x : α) (l : List α) (hp : List.Pairwise le l) :
    List.Pairwise le (insertLe le x l) := by
  induction l with
  | nil => simp [insertLe]
  | cons y ys ih =>
    rw [insertLe]
    rcases List.pairwise_cons.mp hp with ⟨hy, hys⟩
    by_cases h : le x y
    · rw [if_pos h]
      refine List.pairwise_cons.mpr ⟨?_, hp⟩
      intro b hb
      rcases List.mem_cons.mp hb with rfl | hb
      · exact h
      · exact htrans x y b h (hy b hb)
    · rw [if_neg h]
      refine List.pairwise_cons.mpr ⟨?_, ih hys⟩
      intro b hb
      have hb' : b ∈ x :: ys := (insertLe_perm le x ys).mem_iff.mp hb
      rcases List.mem_cons.mp hb' with heq | hb2
      · rw [heq]
        rcases htot x y with hxy | hyx
        · exact absurd hxy h
        · exact hyx
      · exact hy b hb2

theorem sortLe_pairwise {α : Type} (le : α → α → Prop) [DecidableRel le]
    (htot : ∀ a b, le a b ∨ le b a) (htrans : ∀ a b c, le a b → le b c → le a c)
    (l : List α) : List.Pairwise le (sortLe le l) := by
  induction l with
  | nil => simp [sortLe]
  | cons x xs ih => exact insertLe_pairwise le htot htrans x (sortLe le xs) ih

/-- The sort key used to model Python's stable `sorted(subs, key=deadline)`:
compare deadlines, break ties by original list position. -/
def leSub (a b : Nat × Subject) : Prop :=
  a.2.deadline < b.2.deadline ∨ (a.2.deadline = b.2.deadline ∧ a.1 ≤ b.1)

instance leSub.instDec : DecidableRel leSub := fun a b =>
  show Decidable (a.2.deadline < b.2.deadline ∨
    (a.2.deadline = b.2.deadline ∧ a.1 ≤ b.1)) from inferInstance

theorem leSub_total (a b : Nat × Subject) : leSub a b ∨ leSub b a := by
  unfold leSub
  omega

theorem leSub_trans (a b c : Nat × Subject) (h1 : leSub a b) (h2 : leSub b c) :
    leSub a c := by
  unfold leSub at h1 h2 ⊢
  omega

/-- The deadline-assignment pass of `rearrange_schedule`: processes
index-subject pairs in sorted order, advancing each deadline past the
`used` set, exactly as the Python `for` loop over `sorted(subs, ...)`. -/
def assignLoop : List Int → List (Nat × Subject) → List (Nat × Int)
  | _, [] => []
  | used, p :: rest =>
    let d := nextFree used p.2.deadline
    (p.1, d) :: assignLoop (d :: used) rest

theorem assignLoop_map_fst (used : List Int) (l : List (Nat × Subject)) :
    (assignLoop used l).map Prod.fst = l.map Prod.fst := by
  induction l generalizing used with
  | nil => rfl
  | cons p rest ih => simp [assignLoop, ih]

theorem assignLoop_snd_nodup (used : List Int) (l : List (Nat × Subject)) :
    ((assignLoop used l).map Prod.snd).Nodup ∧
      ∀ v ∈ (assignLoop used l).map Prod.snd, v ∉ used := by
  induction l generalizing used with
  | nil => simp [assignLoop]
  | cons p rest ih =>
    obtain ⟨ihnd, ihnot⟩ := ih (nextFree used p.2.deadline :: used)
    constructor
    · refine List.Pairwise.cons ?_ ihnd
      intro v hv
      have := ihnot v hv
      simp only [List.mem_cons] at this
      intro heq
      exact this (Or.inl heq.symm)
    · intro v hv
      simp only [assignLoop, List.map_cons, List.mem_cons] at hv
      rcases hv with rfl | hv
      · exact nextFree_not_mem used p.2.deadline
      · have := ihnot v hv
        simp only [List.mem_cons] at this
        intro hmem
        exact this (Or.inr hmem)

theorem assignLoop_ge (used : List Int) (l : List (Nat × Subject)) :
    ∀ q ∈ assignLoop used l, ∃ p ∈ l, p.1 = q.1 ∧ p.2.deadline ≤ q.2 := by
  induction l generalizing used with
  | nil => simp [assignLoop]
  | cons p rest ih =>
    intro q hq
    simp only [assignLoop, List.mem_cons] at hq
    rcases hq with rfl | hq
    · exact ⟨p, List.mem_cons_self p rest, rfl, nextFree_ge used p.2.deadline⟩
    · obtain ⟨p', hp', h1, h2⟩ := ih _ q hq
      exact ⟨p', List.mem_cons_of_mem p hp', h1, h2⟩

theorem assignLoop_of_increasing (used : List Int) (l : List (Nat × Subject))
    (hinc : List.Pairwise (fun a b => a.2.deadline < b.2.deadline) l)
    (hused : ∀ u ∈ used, ∀ p ∈ l, u < p.2.deadline) :
    assignLoop used l = l.map (fun p => (p.1, p.2.deadline)) := by
  induction l generalizing used with
  | nil => rfl
  | cons p rest ih =>
    have hnot : p.2.deadline ∉ used := by
      intro hmem
      exact lt_irrefl _ (hused _ hmem p (List.mem_cons_self p rest))
    rcases List.pairwise_cons.mp hinc with ⟨hplt, hrest⟩
    simp only [assignLoop, nextFree_of_not_mem used p.2.deadline hnot, List.map_cons]
    refine congrArg _ (ih _ hrest ?_)
    intro u hu q hq
    rcases List.mem_cons.mp hu with rfl | hu
    · exact hplt q hq
    · exact hused u hu q (List.mem_cons_of_mem p hq)

/-- The deadline assignment computed by `rearrange_schedule` over the
stable-sorted subject list, keyed by original list position. -/
def rearrangeAssigns (subs : List Subject) : List (Nat × Int) :=
  assignLoop [] (sortLe leSub subs.enum)

/-- `rearrange_schedule(subs)`: processes subjects sorted ascending by
deadline (stable), pushes clashing deadlines to the next free day, and
mutates the deadlines in place.  Modelled functionally: the assignment
computed over the sorted enumeration is written back by original index. -/
def rearrange_schedule (subs : List Subject) : List Subject :=
  subs.enum.map (fun p =>
    { p.2 with deadline := ((rearrangeAssigns subs).lookup p.1).getD p.2.deadline })

theorem lookup_eq_some_of_mem {β : Type} (l : List (Nat × β))
    (hnd : (l.map Prod.fst).Nodup) {k : Nat} {v : β} (hm : (k, v) ∈ l) :
    l.lookup k = some v := by
  induction l with
  | nil => cases hm
  | cons p rest ih =>
    rcases List.mem_cons.mp hm with heq | hm'
    · rw [← heq]
      simp [List.lookup]
    · have hk : k ∈ rest.map Prod.fst :=
        List.mem_map_of_mem Prod.fst hm'
      have hne : p.1 ≠ k := by
        intro heq
        rcases List.pairwise_cons.mp hnd with ⟨hnot, _⟩
        simp only [List.map_cons] at hnd
        have := (List.nodup_cons.mp hnd).1
        exact this (heq ▸ hk)
      have hbeq : (k == p.1) = false := by
        simp only [beq_eq_false_iff_ne, ne_eq]
        exact fun hh => hne hh.symm
      calc List.lookup k (p :: rest) = List.lookup k rest := by
            rcases p with ⟨p1, p2⟩
            simp only [List.lookup, hbeq]
        _ = some v := ih (by
            simp only [List.map_cons] at hnd
            exact (List.nodup_cons.mp hnd).2) hm'

theorem rearrangeAssigns_fst_perm (subs : List Subject) :
    List.Perm ((rearrangeAssigns subs).map Prod.fst) (List.range subs.length) := by
  rw [rearrangeAssigns, assignLoop_map_fst]
  have h1 : List.Perm ((sortLe leSub subs.enum).map Prod.fst)
      (subs.enum.map Prod.fst) := (sortLe_perm leSub subs.enum).map Prod.fst
  rwa [List.enum_map_fst] at h1

theorem rearrangeAssigns_fst_nodup (subs : List Subject) :
    ((rearrangeAssigns subs).map Prod.fst).Nodup :=
  ((rearrangeAssigns_fst_perm subs).nodup_iff).mpr (List.nodup_range subs.length)

theorem rearrangeAssigns_mem_key (subs : List Subject) {i : Nat}
    (h : i < subs.length) : ∃ v : Int, (i, v) ∈ rearrangeAssigns subs := by
  have : i ∈ (rearrangeAssigns subs).map Prod.fst :=
    (rearrangeAssigns_fst_perm subs).mem_iff.mpr (List.mem_range.mpr h)
  obtain ⟨p, hp, hpe⟩ := List.mem_map.mp this
  exact ⟨p.2, by rwa [show (i, p.2) = p from by rw [← hpe]]⟩

theorem rearrange_schedule_length (subs : List Subject) :
    (rearrange_schedule subs).length = subs.length := by
  simp [rearrange_schedule, List.enum_length]

theorem rearrange_schedule_getElem (subs : List Subject) {i : Nat}
    (h : i < subs.length) (h2 : i < (rearrange_schedule subs).length) {v : Int}
    (hv : (i, v) ∈ rearrangeAssigns subs) :
    (rearrange_schedule subs)[i] = { subs[i] with deadline := v } := by
  have hlook : (rearrangeAssigns subs).lookup i = some v :=
    lookup_eq_some_of_mem _ (rearrangeAssigns_fst_nodup subs) hv
  have hi : i < subs.enum.length := by rwa [List.enum_length]
  simp only [rearrange_schedule, List.getElem_map, List.getElem_enum, hlook,
    Option.getD_some]

theorem rearrangeAssigns_snd_ne (subs : List Subject) {i j : Nat} {v w : Int}
    (hi : (i, v) ∈ rearrangeAssigns subs) (hj : (j, w) ∈ rearrangeAssigns subs)
    (hne : i ≠ j) : v ≠ w := by
  have hnd : ((rearrangeAssigns subs).map Prod.snd).Nodup :=
    (assignLoop_snd_nodup [] (sortLe leSub subs.enum)).1
  have hpw : List.Pairwise (fun p q : Nat × Int => p.2 ≠ q.2)
      (rearrangeAssigns subs) := (List.pairwise_map).mp hnd
  have hsymm : Symmetric (fun p q : Nat × Int => p.2 ≠ q.2) := by
    intro p q hpq
    exact fun hh => hpq hh.symm
  have hne' : (i, v) ≠ (j, w) := by
    intro heq
    exact hne (congrArg Prod.fst heq)
  exact List.Pairwise.forall hsymm hpw hi hj hne'

theorem rearrange_deadline_nodup (subs : List Subject) :
    ((rearrange_schedule subs).map (fun s => s.deadline)).Nodup := by
  rw [List.nodup_iff_injective_get]
  intro a b hab
  have ha : a.1 < subs.length := by
    have := a.2
    simpa [rearrange_schedule_length] using this
  have hb : b.1 < subs.length := by
    have := b.2
    simpa [rearrange_schedule_length] using this
  obtain ⟨v, hv⟩ := rearrangeAssigns_mem_key subs ha
  obtain ⟨w, hw⟩ := rearrangeAssigns_mem_key subs hb
  have hva : ((rearrange_schedule subs).map (fun s => s.deadline)).get a = v := by
    have := rearrange_schedule_getElem subs ha (by rwa [rearrange_schedule_length]) hv
    simp only [List.get_eq_getElem, List.getElem_map]
    rw [this]
  have hwb : ((rearrange_schedule subs).map (fun s => s.deadline)).get b = w := by
    have := rearrange_schedule_getElem subs hb (by rwa [rearrange_schedule_length]) hw
    simp only [List.get_eq_getElem, List.getElem_map]
    rw [this]
  by_contra hne
  have hab' : a.1 ≠ b.1 := fun hh => hne (Fin.ext hh)
  exact rearrangeAssigns_snd_ne subs hv hw hab' (by rw [← hva, ← hwb, hab])

theorem rearrange_deadline_ge (subs : List Subject) {i : Nat}
    (h : i < subs.length) {v : Int} (hv : (i, v) ∈ rearrangeAssigns subs) :
    subs[i].deadline ≤ v := by
  obtain ⟨p, hp, hfst, hle⟩ := assignLoop_ge [] (sortLe leSub subs.enum) (i, v) hv
  have hp' : p ∈ subs.enum := (sortLe_perm leSub subs.enum).mem_iff.mp hp
  have : subs[p.1]? = some p.2 := by
    have := List.mem_enum_iff_getElem?.mp (show (p.1, p.2) ∈ subs.enum by simpa using hp')
    simpa using this
  rw [hfst] at this
  have hsub : p.2 = subs[i] := by
    rw [List.getElem?_eq_getElem h] at this
    exact (Option.some.inj this).symm
  rw [← hsub]
  simpa using hle

theorem sortLe_enum_deadline_nodup (subs : List Subject)
    (hnd : (subs.map (fun s => s.deadline)).Nodup) :
    ((sortLe leSub subs.enum).map (fun p => p.2.deadline)).Nodup := by
  have hperm : List.Perm ((sortLe leSub subs.enum).map (fun p => p.2.deadline))
      (subs.enum.map (fun p => p.2.deadline)) :=
    (sortLe_perm leSub subs.enum).map _
  have heq : subs.enum.map (fun p : Nat × Subject => p.2.deadline) =
      subs.map (fun s => s.deadline) := by
    have : subs.enum.map (fun p : Nat × Subject => p.2.deadline) =
        (subs.enum.map Prod.snd).map (fun s => s.deadline) := by
      rw [List.map_map]
      rfl
    rw [this, List.enum_map_snd]
  rw [hperm.nodup_iff, heq]
  exact hnd

theorem rearrange_of_nodup (subs : List Subject)
    (hnd : (subs.map (fun s => s.deadline)).Nodup) :
    rearrange_schedule subs = subs := by
  have hsorted : List.Pairwise leSub (sortLe leSub subs.enum) :=
    sortLe_pairwise leSub leSub_total leSub_trans subs.enum
  have hne : List.Pairwise (fun p q : Nat × Subject => p.2.deadline ≠ q.2.deadline)
      (sortLe leSub subs.enum) :=
    (List.pairwise_map).mp (sortLe_enum_deadline_nodup subs hnd)
  have hinc : List.Pairwise (fun p q : Nat × Subject => p.2.deadline < q.2.deadline)
      (sortLe leSub subs.enum) := by
    refine (hsorted.and hne).imp ?_
    intro p q hpq
    rcases hpq with ⟨hle | ⟨heq, _⟩, hne'⟩
    · exact hle
    · exact absurd heq hne'
  have hassign : rearrangeAssigns subs =
      (sortLe leSub subs.enum).map (fun p => (p.1, p.2.deadline)) := by
    rw [rearrangeAssigns]
    exact assignLoop_of_increasing [] _ hinc (by intro u hu; cases hu)
  refine List.ext_getElem (rearrange_schedule_length subs) ?_
  intro i hi hi'
  have hv : (i, subs[i].deadline) ∈ rearrangeAssigns subs := by
    rw [hassign]
    have henum : (i, subs[i]) ∈ subs.enum := by
      apply List.mem_enum_iff_getElem?.mpr
      simp [List.getElem?_eq_getElem hi']
    have hsp : (i, subs[i]) ∈ sortLe leSub subs.enum :=
      (sortLe_perm leSub subs.enum).mem_iff.mpr henum
    exact List.mem_map.mpr ⟨(i, subs[i]), hsp, rfl⟩
  rw [rearrange_schedule_getElem subs hi' (by rwa [rearrange_schedule_length]) hv]

/-! ### Subject store commands: `add_subject_command`, `reschedule_subject` -/

/-- Python's `str.lower()` on the difficulty token, modelled character-wise. -/
def strLower (s : String) : String := ⟨s.data.map Char.toLower⟩

/-- The default difficulty map `{"low": 1, "medium": 2, "high": 3}`
(`DEFAULT_DIFF` in the source, loaded from `config/difficulty.json`). -/
def DEFAULT_DIFF : List (String × Int) := [("low", 1), ("medium", 2), ("high", 3)]

/-- Outcome of `add_subject_command`, one constructor per `print`-and-return
branch of the source plus the success branch. -/
inductive AddOutcome where
  | invalidFormat
  | invalidDiff
  | invalidDate
  | invalidMarks
  | added
deriving DecidableEq, Repr

/-- `add_subject_command(cmd)`.  The command string is modelled already split
into whitespace-separated tokens (`cmd.split()`); `parseDate` is the
`parse_date`/`strptime` oracle and `parseInt` the `int(...)` oracle, each
returning `none` where Python raises.  Returns the new store contents
together with the branch taken; the store is only mutated by the final
`subjects.append(subject)` on the success path. -/
def add_subject_command (parseDate parseInt : String → Option Int)
    (difficulty_map : List (String × Int)) (parts : List String)
    (subjects : List Subject) : List Subject × AddOutcome :=
  match parts with
  | [_, _, name, diffStr, deadlineStr, marksStr] =>
    match difficulty_map.lookup (strLower diffStr) with
    | none => (subjects, AddOutcome.invalidDiff)
    | some diffVal =>
      match parseDate deadlineStr with
      | none => (subjects, AddOutcome.invalidDate)
      | some deadline =>
        match parseInt marksStr with
        | none => (subjects, AddOutcome.invalidMarks)
        | some marks =>
          (subjects ++ [Subject.mk name diffVal deadline marks], AddOutcome.added)
  | _ => (subjects, AddOutcome.invalidFormat)

inductive ResOutcome where
  | invalidFormat
  | invalidDate
  | notFound
  | rescheduled
deriving DecidableEq, Repr

/-- The `for s in subjects: if s['name'] == name: s['deadline'] = new_date; ...; return`
loop of `reschedule_subject`: update the first subject whose name matches,
`none` when no subject matches. -/
def setFirstDeadline (name : String) (nd : Int) : List Subject → Option (List Subject)
  | [] => none
  | s :: rest =>
    if s.name = name then some ({ s with deadline := nd } :: rest)
    else (setFirstDeadline name nd rest).map (fun l => s :: l)

/-- `reschedule_subject(cmd)`: argument-count check, date parse, then
first-match deadline update. -/
def reschedule_subject (parseDate : String → Option Int) (parts : List String)
    (subjects : List Subject) : List Subject × ResOutcome :=
  match parts with
  | [_, name, newDateStr] =>
    match parseDate newDateStr with
    | none => (subjects, ResOutcome.invalidDate)
    | some nd =>
      match setFirstDeadline name nd subjects with
      | none => (subjects, ResOutcome.notFound)
      | some subjects2 => (subjects2, ResOutcome.rescheduled)
  | _ => (subjects, ResOutcome.invalidFormat)

/-! ### Plan builder: `generate_plan` -/

/-- One value of the `schedule` dict built by `generate_plan`. -/
structure PlanEntry where
  daily_hours : Int
  days_left : Int
  deadline : Int
deriving DecidableEq, Repr

/-- Python-dict insertion: overwrite in place if the key exists (keeping its
position), otherwise append. -/
def dictInsert {α : Type} : List (String × α) → String → α → List (String × α)
  | [], k, v => [(k, v)]
  | p :: rest, k, v =>
    if p.1 = k then (k, v) :: rest else p :: dictInsert rest k v

/-- The entry `generate_plan` stores for subject `s`:
`predict_study_hours(diff, marks)`, `max(1, days_between(today, deadline))`,
and the deadline.  `predict` is the external hour-predictor collaborator. -/
def planEntryOf (predict : Int → Int → Int) (today : Int) (s : Subject) : PlanEntry :=
  { daily_hours := predict s.difficulty s.marks,
    days_left := max 1 (s.deadline - today),
    deadline := s.deadline }

/-- `generate_plan()`: returns `None` (here `none`) and warns when the store
is empty; otherwise builds the name-keyed schedule dict. -/
def generate_plan (predict : Int → Int → Int) (today : Int)
    (subjects : List Subject) : Option (List (String × PlanEntry)) :=
  if subjects = [] then none
  else some (subjects.foldl (fun acc s => dictInsert acc s.name (planEntryOf predict today s)) [])

/-! ### Timetable builder: `generate_timetable` -/

/-- One timetable block, the payload of the formatted string
`"{start} - {end} : {subject}"`; times are rational hours since midnight. -/
structure Block where
  start : ℚ
  stop : ℚ
  subj : String
deriving DecidableEq, Repr

/-- One pass of the inner `for sub_name in day_order:` loop: skip exhausted
subjects, emit a block of `min(block_hours, hours_left)`, advance the cursor
by the block plus the break, and stop early (Python `break`) as soon as
another full block no longer fits before `end_time`.  Returns the updated
hours dict, cursor, and block list. -/
def innerPass (blockH breakH dayEnd : ℚ) :
    List String → List (String × ℚ) → ℚ → List Block →
      List (String × ℚ) × ℚ × List Block
  | [], hl, cur, acc => (hl, cur, acc)
  | name :: rest, hl, cur, acc =>
    let h := (hl.lookup name).getD 0
    if h ≤ 0 then innerPass blockH breakH dayEnd rest hl cur acc
    else
      let len := if blockH ≤ h then blockH else h
      let acc2 := acc ++ [Block.mk cur (cur + len) name]
      let hl2 := dictInsert hl name (h - len)
      let cur2 := cur + len + breakH
      if dayEnd < cur2 + blockH then (hl2, cur2, acc2)
      else innerPass blockH breakH dayEnd rest hl2 cur2 acc2

/-- The outer `while current_time + block_hours <= end_time and any(hours_left...)`
loop, with an explicit fuel parameter standing in for the unbounded Python
loop.  After each full round, stop if every subject's remaining hours are
`<= 0`, mirroring `if all(h <= 0 for h in hours_left.values()): break`. -/
def whileLoop (blockH breakH dayEnd : ℚ) (order : List String) :
    Nat → List (String × ℚ) → ℚ → List Block → List Block
  | 0, _, _, acc => acc
  | Nat.succ fuel, hl, cur, acc =>
    if decide (cur + blockH ≤ dayEnd) && hl.any (fun p => decide (p.2 ≠ 0)) then
      let r := innerPass blockH breakH dayEnd order hl cur acc
      if r.1.all (fun p => decide (p.2 ≤ 0)) then r.2.2
      else whileLoop blockH breakH dayEnd order fuel r.1 r.2.1 r.2.2
    else acc

/-- `active_subjects = [s for s in subjects if s['deadline'] >= day_date]`. -/
def activeOn (subjects : List Subject) (d : Int) : List Subject :=
  subjects.filter (fun s => decide (d ≤ s.deadline))

/-- The per-day subject ordering for policies A (fixed), B (rotate by
`day_offset mod count`), C (urgency, i.e. stable sort by deadline), with the
source's fallthrough (any other input) keeping the active order. -/
def dayOrder (orderPref : String) (fixedOrder : List String) (dayOffset : Nat)
    (active : List Subject) : List String :=
  if orderPref = "A" then
    (active.filter (fun s => decide (s.name ∈ fixedOrder))).map (fun s => s.name)
  else if orderPref = "B" then
    let names := active.map (fun s => s.name)
    let k := dayOffset % names.length
    names.drop k ++ names.take k
  else if orderPref = "C" then
    (sortLe leSub active.enum).map (fun p => p.2.name)
  else active.map (fun s => s.name)

/-- `hours_left = {s['name']: plan[s['name']]['daily_hours'] for s in active}`.
A name missing from the plan would raise `KeyError` in Python; it is
modelled as a 0-hour quota (such a subject can never receive a block). -/
def initialHours (plan : List (String × PlanEntry)) (active : List Subject) :
    List (String × ℚ) :=
  active.foldl (fun hl s =>
    dictInsert hl s.name (((plan.lookup s.name).map (fun e => (e.daily_hours : ℚ))).getD 0)) []

/-- `max(s['deadline'] for s in subjects)` (only used on non-empty lists). -/
def maxDeadline : List Subject → Int
  | [] => 0
  | [s] => s.deadline
  | s :: rest => max s.deadline (maxDeadline rest)

/-- One iteration of `for day_offset in range(total_days):` — `none` when the
day has no active subjects (`continue`, day omitted from the output),
otherwise the day's date paired with its allocated block sequence. -/
def buildDay (fuel : Nat) (today : Int) (startHour endHour : Int) (blockHours : ℚ)
    (breakMinutes : Int) (orderPref : String) (subjects : List Subject)
    (plan : List (String × PlanEntry)) (dayOffset : Nat) : Option (Int × List Block) :=
  let dayDate := today + (dayOffset : Int)
  let active := activeOn subjects dayDate
  if active = [] then none
  else
    some (dayDate,
      whileLoop blockHours ((breakMinutes : ℚ) / 60) ((endHour : ℚ))
        (dayOrder orderPref (subjects.map (fun s => s.name)) dayOffset active)
        fuel (initialHours plan active) ((startHour : ℚ)) [])

/-- `generate_timetable(subjects, plan)` after the interactive parameter
prompts: rejects only an empty subject list or plan (the
`"No subjects to schedule!"` warning, modelled as `none`), then builds the
chronological `timetable` dict over `[today, max deadline]`. -/
def generate_timetable (fuel : Nat) (today : Int) (startHour endHour : Int)
    (blockHours : ℚ) (breakMinutes : Int) (orderPref : String)
    (subjects : List Subject) (plan : List (String × PlanEntry)) :
    Option (List (Int × List Block)) :=
  if subjects = [] ∨ plan = [] then none
  else
    let totalDays := (maxDeadline subjects - today + 1).toNat
    some ((List.range totalDays).filterMap
      (buildDay fuel today startHour endHour blockHours breakMinutes orderPref subjects plan))

/-! ### Timetable invariants -/

/-- Two blocks in sequence: the first ends before the second starts (no
overlap) and starts strictly earlier (strict ordering by start time). -/
def blockRel (b1 b2 : Block) : Prop := b1.stop ≤ b2.start ∧ b1.start < b2.start

/-- Loop invariant for the day allocation: blocks so far are chained by
`blockRel`, are non-degenerate, end by `dayEnd`, and lie strictly before
the cursor. -/
def GoodBlocks (dayEnd cur : ℚ) (acc : List Block) : Prop :=
  List.Chain' blockRel acc ∧
    ∀ b ∈ acc, b.start < b.stop ∧ b.stop ≤ dayEnd ∧ b.stop ≤ cur ∧ b.start < cur

theorem GoodBlocks.mono {dayEnd cur cur2 : ℚ} {acc : List Block}
    (hg : GoodBlocks dayEnd cur acc) (hle : cur ≤ cur2) : GoodBlocks dayEnd cur2 acc := by
  obtain ⟨hchain, hmem⟩ := hg
  refine ⟨hchain, ?_⟩
  intro b hb
  obtain ⟨h0, h1, h2, h3⟩ := hmem b hb
  exact ⟨h0, h1, le_trans h2 hle, lt_of_lt_of_le h3 hle⟩

theorem GoodBlocks.snoc {dayEnd cur : ℚ} {acc : List Block} {b : Block}
    (hg : GoodBlocks dayEnd cur acc) (hstart : b.start = cur) (hlt : b.start < b.stop)
    (hstop : b.stop ≤ dayEnd) : GoodBlocks dayEnd b.stop (acc ++ [b]) := by
  obtain ⟨hchain, hmem⟩ := hg
  constructor
  · refine List.chain'_append.mpr ⟨hchain, List.chain'_singleton b, ?_⟩
    intro x hx y hy
    rcases List.mem_singleton.mp (by simpa using hy) with rfl
    have hxm : x ∈ acc := List.mem_of_mem_getLast? hx
    obtain ⟨_, _, h2, h3⟩ := hmem x hxm
    exact ⟨by rw [hstart]; exact h2, by rw [hstart]; exact h3⟩
  · intro c hc
    rcases List.mem_append.mp hc with hc | hc
    · obtain ⟨h0, h1, h2, h3⟩ := hmem c hc
      have hcur : cur ≤ b.stop := by rw [← hstart]; exact le_of_lt hlt
      exact ⟨h0, h1, le_trans h2 hcur, lt_of_lt_of_le h3 hcur⟩
    · rcases List.mem_singleton.mp hc with rfl
      exact ⟨hlt, hstop, le_refl _, hlt⟩

/-- A `blockRel` chain of non-degenerate blocks is pairwise `blockRel`:
every later block starts at or after every earlier block's end. -/
theorem chain_blockRel_pairwise :
    ∀ (l : List Block), List.Chain' blockRel l → (∀ b ∈ l, b.start < b.stop) →
      List.Pairwise blockRel l := by
  intro l
  induction l with
  | nil => intro _ _; exact List.Pairwise.nil
  | cons a t ih =>
    intro hchain hnd
    have htail : List.Chain' blockRel t := hchain.tail
    have hpt : List.Pairwise blockRel t :=
      ih htail (fun b hb => hnd b (List.mem_cons_of_mem a hb))
    refine List.pairwise_cons.mpr ⟨?_, hpt⟩
    cases t with
    | nil => intro b hb; cases hb
    | cons c t2 =>
      have hac : blockRel a c := List.chain'_cons.mp hchain |>.1
      intro b hb
      rcases List.mem_cons.mp hb with heq | hb2
      · rw [heq]; exact hac
      · have hcb : blockRel c b :=
          (List.pairwise_cons.mp hpt).1 b hb2
        have hc : c.start < c.stop := hnd c (List.mem_cons_of_mem a (List.mem_cons_self c t2))
        exact ⟨le_trans hac.1 (le_trans (le_of_lt hc) hcb.1),
          lt_trans hac.2 hcb.2⟩

theorem innerPass_good (blockH breakH dayEnd : ℚ) (hb : 0 < blockH) (hbr : 0 ≤ breakH) :
    ∀ (order : List String) (hl : List (String × ℚ)) (cur : ℚ) (acc : List Block),
      cur + blockH ≤ dayEnd → GoodBlocks dayEnd cur acc →
      GoodBlocks dayEnd (innerPass blockH breakH dayEnd order hl cur acc).2.1
        (innerPass blockH breakH dayEnd order hl cur acc).2.2 := by
  intro order
  induction order with
  | nil =>
    intro hl cur acc hcur hg
    simpa [innerPass] using hg
  | cons name rest ih =>
    intro hl cur acc hcur hg
    by_cases hh : (hl.lookup name).getD 0 ≤ 0
    · simp only [innerPass, hh, if_true]
      exact ih hl cur acc hcur hg
    · simp only [innerPass, hh, if_false]
      have hpos : 0 < (hl.lookup name).getD 0 := lt_of_not_le hh
      set h := (hl.lookup name).getD 0 with hdef
      set len := if blockH ≤ h then blockH else h with ldef
      have hlenpos : 0 < len := by
        rw [ldef]
        by_cases hc : blockH ≤ h
        · rw [if_pos hc]; exact hb
        · rw [if_neg hc]; exact hpos
      have hlenle : len ≤ blockH := by
        rw [ldef]
        by_cases hc : blockH ≤ h
        · rw [if_pos hc]
        · rw [if_neg hc]; exact le_of_not_le hc
      have hg2 : GoodBlocks dayEnd (cur + len)
          (acc ++ [Block.mk cur (cur + len) name]) := by
        refine hg.snoc rfl (by simpa using hlenpos) ?_
        show cur + len ≤ dayEnd
        linarith
      have hg3 : GoodBlocks dayEnd (cur + len + breakH)
          (acc ++ [Block.mk cur (cur + len) name]) :=
        hg2.mono (by linarith)
      by_cases hstop : dayEnd < cur + len + breakH + blockH
      · rw [if_pos hstop]
        exact hg3
      · rw [if_neg hstop]
        exact ih _ _ _ (by linarith) hg3

theorem whileLoop_good (blockH breakH dayEnd : ℚ) (hb : 0 < blockH) (hbr : 0 ≤ breakH)
    (order : List String) :
    ∀ (fuel : Nat) (hl : List (String × ℚ)) (cur : ℚ) (acc : List Block),
      GoodBlocks dayEnd cur acc →
      List.Chain' blockRel (whileLoop blockH breakH dayEnd order fuel hl cur acc) ∧
      (∀ b ∈ whileLoop blockH breakH dayEnd order fuel hl cur acc, b.start < b.stop) ∧
      ∀ b ∈ whileLoop blockH breakH dayEnd order fuel hl cur acc, b.stop ≤ dayEnd := by
  intro fuel
  induction fuel with
  | zero =>
    intro hl cur acc hg
    exact ⟨hg.1, fun b hb2 => (hg.2 b hb2).1, fun b hb2 => (hg.2 b hb2).2.1⟩
  | succ fuel ih =>
    intro hl cur acc hg
    by_cases hcond : (decide (cur + blockH ≤ dayEnd) &&
        hl.any (fun p => decide (p.2 ≠ 0))) = true
    · have hcur : cur + blockH ≤ dayEnd := by
        simp only [Bool.and_eq_true, decide_eq_true_eq] at hcond
        exact hcond.1
      have hinner := innerPass_good blockH breakH dayEnd hb hbr order hl cur acc hcur hg
      simp only [whileLoop, hcond, if_true]
      by_cases hall : ((innerPass blockH breakH dayEnd order hl cur acc).1.all
          (fun p => decide (p.2 ≤ 0))) = true
      · rw [if_pos hall]
        exact ⟨hinner.1, fun b hb2 => (hinner.2 b hb2).1,
          fun b hb2 => (hinner.2 b hb2).2.1⟩
      · rw [if_neg hall]
        exact ih _ _ _ hinner
    · simp only [whileLoop, hcond, if_false]
      exact ⟨hg.1, fun b hb2 => (hg.2 b hb2).1, fun b hb2 => (hg.2 b hb2).2.1⟩

theorem innerPass_subj (blockH breakH dayEnd : ℚ) :
    ∀ (order : List String) (hl : List (String × ℚ)) (cur : ℚ) (acc : List Block),
      ∀ b ∈ (innerPass blockH breakH dayEnd order hl cur acc).2.2,
        b ∈ acc ∨ b.subj ∈ order := by
  intro order
  induction order with
  | nil =>
    intro hl cur acc b hb
    simp only [innerPass] at hb
    exact Or.inl hb
  | cons name rest ih =>
    intro hl cur acc b hb
    by_cases hh : (hl.lookup name).getD 0 ≤ 0
    · simp only [innerPass, hh, if_true] at hb
      rcases ih hl cur acc b hb with h | h
      · exact Or.inl h
      · exact Or.inr (List.mem_cons_of_mem name h)
    · simp only [innerPass, hh, if_false] at hb
      by_cases hstop : dayEnd <
          cur + (if blockH ≤ (hl.lookup name).getD 0 then blockH
            else (hl.lookup name).getD 0) + breakH + blockH
      · rw [if_pos hstop] at hb
        rcases List.mem_append.mp hb with hb | hb
        · exact Or.inl hb
        · rcases List.mem_singleton.mp hb with rfl
          exact Or.inr (List.mem_cons_self name rest)
      · rw [if_neg hstop] at hb
        rcases ih _ _ _ b hb with h | h
        · rcases List.mem_append.mp h with h | h
          · exact Or.inl h
          · rcases List.mem_singleton.mp h with rfl
            exact Or.inr (List.mem_cons_self name rest)
        · exact Or.inr (List.mem_cons_of_mem name h)

theorem whileLoop_subj (blockH breakH dayEnd : ℚ) (order : List String) :
    ∀ (fuel : Nat) (hl : List (String × ℚ)) (cur : ℚ) (acc : List Block),
      ∀ b ∈ whileLoop blockH breakH dayEnd order fuel hl cur acc,
        b ∈ acc ∨ b.subj ∈ order := by
  intro fuel
  induction fuel with
  | zero =>
    intro hl cur acc b hb
    exact Or.inl hb
  | succ fuel ih =>
    intro hl cur acc b hb
    by_cases hcond : (decide (cur + blockH ≤ dayEnd) &&
        hl.any (fun p => decide (p.2 ≠ 0))) = true
    · simp only [whileLoop, hcond, if_true] at hb
      by_cases hall : ((innerPass blockH breakH dayEnd order hl cur acc).1.all
          (fun p => decide (p.2 ≤ 0))) = true
      · rw [if_pos hall] at hb
        exact innerPass_subj blockH breakH dayEnd order hl cur acc b hb
      · rw [if_neg hall] at hb
        rcases ih _ _ _ b hb with h | h
        · exact innerPass_subj blockH breakH dayEnd order hl cur acc b h
        · exact Or.inr h
    · simp only [whileLoop, hcond, if_false] at hb
      exact Or.inl hb

theorem dayOrder_mem (orderPref : String) (fixedOrder : List String) (dayOffset : Nat)
    (active : List Subject) :
    ∀ nm ∈ dayOrder orderPref fixedOrder dayOffset active, ∃ s ∈ active, s.name = nm := by
  intro nm hnm
  rw [dayOrder] at hnm
  by_cases hA : orderPref = "A"
  · rw [if_pos hA] at hnm
    obtain ⟨s, hs, hse⟩ := List.mem_map.mp hnm
    exact ⟨s, List.mem_of_mem_filter hs, hse⟩
  · rw [if_neg hA] at hnm
    by_cases hB : orderPref = "B"
    · rw [if_pos hB] at hnm
      simp only at hnm
      have hmem : nm ∈ active.map (fun s => s.name) := by
        rcases List.mem_append.mp hnm with h | h
        · exact List.mem_of_mem_drop h
        · exact List.mem_of_mem_take h
      obtain ⟨s, hs, hse⟩ := List.mem_map.mp hmem
      exact ⟨s, hs, hse⟩
    · rw [if_neg hB] at hnm
      by_cases hC : orderPref = "C"
      · rw [if_pos hC] at hnm
        obtain ⟨p, hp, hpe⟩ := List.mem_map.mp hnm
        have hp' : p ∈ active.enum := (sortLe_perm leSub active.enum).mem_iff.mp hp
        have : p.2 ∈ active := by
          have : p.2 ∈ active.enum.map Prod.snd := List.mem_map_of_mem Prod.snd hp'
          rwa [List.enum_map_snd] at this
        exact ⟨p.2, this, hpe⟩
      · rw [if_neg hC] at hnm
        obtain ⟨s, hs, hse⟩ := List.mem_map.mp hnm
        exact ⟨s, hs, hse⟩

theorem GoodBlocks.nil (dayEnd cur : ℚ) : GoodBlocks dayEnd cur [] :=
  ⟨List.chain'_nil, fun b hb => absurd hb (List.not_mem_nil b)⟩

theorem buildDay_eq_some {fuel : Nat} {today startHour endHour : Int} {blockHours : ℚ}
    {breakMinutes : Int} {orderPref : String} {subjects : List Subject}
    {plan : List (String × PlanEntry)} {dayOffset : Nat} {e : Int × List Block}
    (h : buildDay fuel today startHour endHour blockHours breakMinutes orderPref
      subjects plan dayOffset = some e) :
    e.1 = today + (dayOffset : Int) ∧
    e.2 = whileLoop blockHours ((breakMinutes : ℚ) / 60) ((endHour : ℚ))
      (dayOrder orderPref (subjects.map (fun s => s.name)) dayOffset
        (activeOn subjects (today + (dayOffset : Int))))
      fuel (initialHours plan (activeOn subjects (today + (dayOffset : Int))))
      ((startHour : ℚ)) [] := by
  rw [buildDay] at h
  by_cases hact : activeOn subjects (today + (dayOffset : Int)) = []
  · rw [if_pos hact] at h
    cases h
  · rw [if_neg hact] at h
    have := Option.some.inj h
    rw [← this]
    exact ⟨rfl, rfl⟩

theorem generate_timetable_eq_some {fuel : Nat} {today startHour endHour : Int}
    {blockHours : ℚ} {breakMinutes : Int} {orderPref : String} {subjects : List Subject}
    {plan : List (String × PlanEntry)} {tb : List (Int × List Block)}
    (h : generate_timetable fuel today startHour endHour blockHours breakMinutes
      orderPref subjects plan = some tb) :
    ∀ e ∈ tb, ∃ dayOffset : Nat,
      buildDay fuel today startHour endHour blockHours breakMinutes orderPref
        subjects plan dayOffset = some e := by
  rw [generate_timetable] at h
  by_cases hemp : subjects = [] ∨ plan = []
  · rw [if_pos hemp] at h
    cases h
  · rw [if_neg hemp] at h
    have := Option.some.inj h
    intro e he
    rw [← this] at he
    obtain ⟨off, _, hoff⟩ := List.mem_filterMap.mp he
    exact ⟨off, hoff⟩

/-! ### Plan builder lemmas -/

theorem dictInsert_forall {α : Type} (P : String × α → Prop) :
    ∀ (l : List (String × α)) (k : String) (v : α),
      (∀ p ∈ l, P p) → P (k, v) → ∀ p ∈ dictInsert l k v, P p := by
  intro l
  induction l with
  | nil =>
    intro k v _ hkv p hp
    rcases List.mem_singleton.mp hp with rfl
    exact hkv
  | cons q rest ih =>
    intro k v hall hkv p hp
    rw [dictInsert] at hp
    by_cases hq : q.1 = k
    · rw [if_pos hq] at hp
      rcases List.mem_cons.mp hp with rfl | hp
      · exact hkv
      · exact hall p (List.mem_cons_of_mem q hp)
    · rw [if_neg hq] at hp
      rcases List.mem_cons.mp hp with heq | hp
      · rw [heq]
        exact hall q (List.mem_cons_self q rest)
      · exact ih k v (fun r hr => hall r (List.mem_cons_of_mem q hr)) hkv p hp

theorem dictInsert_key_mem {α : Type} :
    ∀ (l : List (String × α)) (k : String) (v : α),
      k ∈ (dictInsert l k v).map Prod.fst := by
  intro l
  induction l with
  | nil => intro k v; simp [dictInsert]
  | cons q rest ih =>
    intro k v
    rw [dictInsert]
    by_cases hq : q.1 = k
    · rw [if_pos hq]; simp
    · rw [if_neg hq]
      simp only [List.map_cons, List.mem_cons]
      exact Or.inr (ih k v)

theorem dictInsert_key_preserved {α : Type} :
    ∀ (l : List (String × α)) (k k2 : String) (v : α),
      k2 ∈ l.map Prod.fst → k2 ∈ (dictInsert l k v).map Prod.fst := by
  intro l
  induction l with
  | nil => intro k k2 v h; cases h
  | cons q rest ih =>
    intro k k2 v h
    rw [dictInsert]
    rcases List.mem_cons.mp h with heq | h
    · by_cases hq : q.1 = k
      · rw [if_pos hq]
        simp only [List.map_cons, List.mem_cons]
        exact Or.inl (heq.trans hq)
      · rw [if_neg hq]
        simp only [List.map_cons, List.mem_cons]
        exact Or.inl heq
    · by_cases hq : q.1 = k
      · rw [if_pos hq]
        simp only [List.map_cons, List.mem_cons]
        exact Or.inr h
      · rw [if_neg hq]
        simp only [List.map_cons, List.mem_cons]
        exact Or.inr (ih k k2 v h)

theorem planFold_forall (predict : Int → Int → Int) (today : Int)
    (P : String × PlanEntry → Prop) :
    ∀ (subs : List Subject) (acc : List (String × PlanEntry)),
      (∀ p ∈ acc, P p) → (∀ s ∈ subs, P (s.name, planEntryOf predict today s)) →
      ∀ p ∈ subs.foldl (fun acc s => dictInsert acc s.name (planEntryOf predict today s)) acc,
        P p := by
  intro subs
  induction subs with
  | nil =>
    intro acc hacc _ p hp
    exact hacc p hp
  | cons s rest ih =>
    intro acc hacc hsubs p hp
    rw [List.foldl_cons] at hp
    refine ih _ ?_ (fun t ht => hsubs t (List.mem_cons_of_mem s ht)) p hp
    exact dictInsert_forall P acc s.name (planEntryOf predict today s) hacc
      (hsubs s (List.mem_cons_self s rest))

theorem planFold_keys (predict : Int → Int → Int) (today : Int) :
    ∀ (subs : List Subject) (acc : List (String × PlanEntry)) (k : String),
      (k ∈ acc.map Prod.fst ∨ ∃ s ∈ subs, s.name = k) →
      k ∈ (subs.foldl (fun acc s => dictInsert acc s.name (planEntryOf predict today s))
        acc).map Prod.fst := by
  intro subs
  induction subs with
  | nil =>
    intro acc k hk
    rcases hk with hk | ⟨s, hs, _⟩
    · exact hk
    · cases hs
  | cons s rest ih =>
    intro acc k hk
    rw [List.foldl_cons]
    refine ih _ k ?_
    rcases hk with hk | ⟨t, ht, hte⟩
    · exact Or.inl (dictInsert_key_preserved acc s.name k _ hk)
    · rcases List.mem_cons.mp ht with rfl | ht
      · exact Or.inl (hte ▸ dictInsert_key_mem acc t.name (planEntryOf predict today t))
      · exact Or.inr ⟨t, ht, hte⟩

/-! ### Command frame lemmas -/

theorem add_subject_frame (pd pi : String → Option Int) (dm : List (String × Int))
    (parts : List String) (subs : List Subject)
    (h : (add_subject_command pd pi dm parts subs).2 ≠ AddOutcome.added) :
    (add_subject_command pd pi dm parts subs).1 = subs := by
  rcases parts with _ | ⟨a, _ | ⟨b, _ | ⟨c, _ | ⟨d, _ | ⟨e, _ | ⟨f, _ | ⟨g, rest⟩⟩⟩⟩⟩⟩⟩
  · rfl
  · rfl
  · rfl
  · rfl
  · rfl
  · rfl
  · cases hdiff : dm.lookup (strLower d) with
    | none => simp [add_subject_command, hdiff]
    | some dv =>
      cases hdate : pd e with
      | none => simp [add_subject_command, hdiff, hdate]
      | some dl =>
        cases hmark : pi f with
        | none => simp [add_subject_command, hdiff, hdate, hmark]
        | some mk =>
          exfalso
          apply h
          simp [add_subject_command, hdiff, hdate, hmark]
  · rfl

theorem reschedule_frame (pd : String → Option Int) (parts : List String)
    (subs : List Subject)
    (h : (reschedule_subject pd parts subs).2 ≠ ResOutcome.rescheduled) :
    (reschedule_subject pd parts subs).1 = subs := by
  rcases parts with _ | ⟨a, _ | ⟨b, _ | ⟨c, _ | ⟨d, rest⟩⟩⟩⟩
  · rfl
  · rfl
  · rfl
  · cases hdate : pd c with
    | none => simp [reschedule_subject, hdate]
    | some nd =>
      cases hset : setFirstDeadline b nd subs with
      | none => simp [reschedule_subject, hdate, hset]
      | some subs2 =>
        exfalso
        apply h
        simp [reschedule_subject, hdate, hset]
  · rfl

/-- Field-frame helper: any subject projection that ignores the deadline is
preserved by `rearrange_schedule`. -/
theorem rearrange_map_field {β : Type} (g : Subject → β)
    (hg : ∀ (s : Subject) (d : Int), g { s with deadline := d } = g s)
    (subs : List Subject) : (rearrange_schedule subs).map g = subs.map g := by
  rw [rearrange_schedule, List.map_map]
  have h1 : (g ∘ fun p : Nat × Subject =>
      { p.2 with deadline := ((rearrangeAssigns subs).lookup p.1).getD p.2.deadline }) =
      (fun p : Nat × Subject => g p.2) := by
    funext p
    exact hg p.2 _
  rw [h1]
  have h2 : (fun p : Nat × Subject => g p.2) = (g ∘ Prod.snd) := rfl
  rw [h2, ← List.map_map, List.enum_map_snd]

/-! ### Concrete scenario data (the spec's worked example) -/

/-- The single-subject store of the spec's scenario: Math, difficulty 2
(medium), deadline three days from today (day 0), marks 50. -/
def mathOnly : List Subject := [Subject.mk "Math" 2 3 50]

/-- The plan for `mathOnly` with `predict_hours` returning 2. -/
def mathPlan : List (String × PlanEntry) := [("Math", PlanEntry.mk 2 3 3)]

/-- The two blocks of each scenario day: 9:00–10:00 and 10:10–11:10
(61/6 and 67/6 hours). -/
def mathBlocks : List Block :=
  [Block.mk 9 10 "Math", Block.mk (61/6) (67/6) "Math"]

/-- The expected four-day timetable of the scenario. -/
def mathTimetable : List (Int × List Block) :=
  [(0, mathBlocks), (1, mathBlocks), (2, mathBlocks), (3, mathBlocks)]

attribute [local semireducible] Rat.add Rat.mul Rat.sub Rat.inv

/-! ### Claims -/

/-- C1: with subjects = [Math, difficulty 2, deadline today+3, marks 50],
`predict_hours` → 2, `start_hour = 9`, `end_hour = 12`, `block_hours = 1`,
`break_minutes = 10`, policy FIXED ("A"), day 0 consists of exactly the two
blocks 09:00–10:00 Math and 10:10–11:10 Math (allocation stops when the
2-hour quota is exhausted), and days 1–3 produce the same two blocks while
Math remains active (through its deadline day 3, inclusive). -/
theorem C1_fixed_policy_scenario :
    generate_timetable 10 0 9 12 1 10 "A" mathOnly mathPlan = some mathTimetable := by
  decide

/-- C2: under the preconditions `start_hour < end_hour`, `block_hours > 0`
and `break_minutes ≥ 0`, every day of the generated timetable has strictly
non-overlapping blocks in increasing start order, and no block ends after
the `end_hour` boundary. -/
theorem C2_day_blocks_invariants (fuel : Nat) (today startHour endHour : Int)
    (blockHours : ℚ) (breakMinutes : Int) (orderPref : String)
    (subjects : List Subject) (plan : List (String × PlanEntry))
    (tb : List (Int × List Block))
    (hwin : startHour < endHour) (hblock : 0 < blockHours) (hbreak : 0 ≤ breakMinutes)
    (hgen : generate_timetable fuel today startHour endHour blockHours breakMinutes
      orderPref subjects plan = some tb) :
    ∀ e ∈ tb, List.Pairwise blockRel e.2 ∧ ∀ b ∈ e.2, b.stop ≤ (endHour : ℚ) := by
  intro e he
  obtain ⟨off, hoff⟩ := generate_timetable_eq_some hgen e he
  obtain ⟨he1, he2⟩ := buildDay_eq_some hoff
  have hbr : (0:ℚ) ≤ (breakMinutes : ℚ) / 60 := by
    apply div_nonneg
    · exact_mod_cast hbreak
    · norm_num
  rw [he2]
  obtain ⟨hc, hnd, hend⟩ := whileLoop_good blockHours ((breakMinutes : ℚ) / 60)
    ((endHour : ℚ)) hblock hbr _ fuel _ _ [] (GoodBlocks.nil _ _)
  exact ⟨chain_blockRel_pairwise _ hc hnd, hend⟩

/-- C2 witness: the invariants instantiated on the concrete scenario of the
spec (window 9–12, 1-hour blocks, 10-minute breaks, fixed policy). -/
theorem C2_day_blocks_invariants_witness :
    (9:ℤ) < 12 ∧ (0:ℚ) < 1 ∧ (0:ℤ) ≤ 10 ∧
    ∀ e ∈ mathTimetable, List.Pairwise blockRel e.2 ∧ ∀ b ∈ e.2, b.stop ≤ ((12:ℤ) : ℚ) :=
  ⟨by decide, by decide, by decide,
    C2_day_blocks_invariants 10 0 9 12 1 10 "A" mathOnly mathPlan mathTimetable
      (by decide) (by decide) (by decide) (by decide)⟩

/-- C3: every block of every day in the generated timetable is labelled by a
subject whose deadline is on or after that day (no block strictly after the
deadline), and a subject whose deadline equals day `d` is still in the
active set on day `d` itself (inclusive boundary). -/
theorem C3_no_blocks_after_deadline (fuel : Nat) (today startHour endHour : Int)
    (blockHours : ℚ) (breakMinutes : Int) (orderPref : String)
    (subjects : List Subject) (plan : List (String × PlanEntry))
    (tb : List (Int × List Block))
    (hgen : generate_timetable fuel today startHour endHour blockHours breakMinutes
      orderPref subjects plan = some tb) :
    (∀ e ∈ tb, ∀ b ∈ e.2, ∃ s ∈ subjects, s.name = b.subj ∧ e.1 ≤ s.deadline) ∧
    (∀ s ∈ subjects, ∀ d : Int, d ≤ s.deadline → s ∈ activeOn subjects d) := by
  constructor
  · intro e he b hb
    obtain ⟨off, hoff⟩ := generate_timetable_eq_some hgen e he
    obtain ⟨he1, he2⟩ := buildDay_eq_some hoff
    rw [he2] at hb
    rcases whileLoop_subj _ _ _ _ fuel _ _ _ b hb with hmem | hsubj
    · cases hmem
    · obtain ⟨s, hs, hse⟩ := dayOrder_mem _ _ _ _ _ hsubj
      have hfil := List.mem_filter.mp hs
      refine ⟨s, hfil.1, hse, ?_⟩
      rw [he1]
      exact of_decide_eq_true hfil.2
  · intro s hs d hd
    rw [activeOn]
    exact List.mem_filter.mpr ⟨hs, decide_eq_true hd⟩

/-- C3 witness: instantiated on the concrete scenario; each block on each
day belongs to Math, whose deadline (day 3) is on or after every produced
day, and Math is active on its own deadline day. -/
theorem C3_no_blocks_after_deadline_witness :
    (∀ e ∈ mathTimetable, ∀ b ∈ e.2,
      ∃ s ∈ mathOnly, s.name = b.subj ∧ e.1 ≤ s.deadline) ∧
    (∀ s ∈ mathOnly, ∀ d : Int, d ≤ s.deadline → s ∈ activeOn mathOnly d) :=
  C3_no_blocks_after_deadline 10 0 9 12 1 10 "A" mathOnly mathPlan mathTimetable
    (by decide)

/-- C4 (code bug): `generate_timetable` performs no validation of the window
parameters.  With `start_hour = 9 > end_hour = 5` the allocation runs anyway
and returns a timetable of empty day entries instead of raising an
`InvalidWindow` condition (and a negative `block_hours` would make the
Python `while` loop run forever). -/
theorem C4_no_window_validation :
    generate_timetable 10 0 9 5 1 0 "A" mathOnly mathPlan =
      some [(0, []), (1, []), (2, []), (3, [])] := by
  decide

/-- C5: on a subject set with at least two identical deadlines,
`rearrange_schedule` leaves every pair of subjects with distinct deadlines,
and no subject's deadline moves earlier. -/
theorem C5_resolve_distinct_nondecreasing (subs : List Subject)
    (hclash : ¬ (subs.map (fun s => s.deadline)).Nodup) :
    ((rearrange_schedule subs).map (fun s => s.deadline)).Nodup ∧
    List.Forall₂ (fun a b : Int => a ≤ b) (subs.map (fun s => s.deadline))
      ((rearrange_schedule subs).map (fun s => s.deadline)) := by
  refine ⟨rearrange_deadline_nodup subs, ?_⟩
  rw [List.forall₂_iff_get]
  constructor
  · simp [rearrange_schedule_length]
  · intro i h1 h2
    simp only [List.get_eq_getElem, List.getElem_map]
    have hi : i < subs.length := by simpa using h1
    obtain ⟨v, hv⟩ := rearrangeAssigns_mem_key subs hi
    rw [rearrange_schedule_getElem subs hi (by rwa [rearrange_schedule_length]) hv]
    exact rearrange_deadline_ge subs hi hv

/-- C5 witness: two subjects sharing deadline 5; after the rearrangement the
deadlines are pairwise distinct and none has decreased. -/
theorem C5_resolve_distinct_nondecreasing_witness :
    ¬ (([Subject.mk "A" 1 5 10, Subject.mk "B" 2 5 20].map (fun s => s.deadline)).Nodup) ∧
    ((rearrange_schedule [Subject.mk "A" 1 5 10, Subject.mk "B" 2 5 20]).map
      (fun s => s.deadline)).Nodup ∧
    List.Forall₂ (fun a b : Int => a ≤ b)
      ([Subject.mk "A" 1 5 10, Subject.mk "B" 2 5 20].map (fun s => s.deadline))
      ((rearrange_schedule [Subject.mk "A" 1 5 10, Subject.mk "B" 2 5 20]).map
        (fun s => s.deadline)) :=
  ⟨by decide, C5_resolve_distinct_nondecreasing
    [Subject.mk "A" 1 5 10, Subject.mk "B" 2 5 20] (by decide)⟩

/-- C6: `rearrange_schedule` is idempotent — applying it twice yields the
same subject list (hence the same deadlines) as applying it once. -/
theorem C6_resolve_idempotent (subs : List Subject) :
    rearrange_schedule (rearrange_schedule subs) = rearrange_schedule subs :=
  rearrange_of_nodup _ (rearrange_deadline_nodup subs)

/-- C7: for a non-empty subject set, `generate_plan` succeeds and gives every
plan entry `days_left = max(1, deadline − today)`, hence `days_left ≥ 1`
even for deadlines today or in the past; every subject's name is a key of
the plan. -/
theorem C7_days_left_at_least_one (predict : Int → Int → Int) (today : Int)
    (subs : List Subject) (hne : subs ≠ []) :
    ∃ plan, generate_plan predict today subs = some plan ∧
      (∀ p ∈ plan, p.2.days_left = max 1 (p.2.deadline - today) ∧ 1 ≤ p.2.days_left) ∧
      (∀ s ∈ subs, s.name ∈ plan.map Prod.fst) := by
  refine ⟨_, by rw [generate_plan, if_neg hne], ?_, ?_⟩
  · intro p hp
    refine planFold_forall predict today
      (fun p => p.2.days_left = max 1 (p.2.deadline - today) ∧ 1 ≤ p.2.days_left)
      subs [] (by intro q hq; cases hq) ?_ p hp
    intro s _
    exact ⟨rfl, le_max_left 1 _⟩
  · intro s hs
    exact planFold_keys predict today subs [] s.name (Or.inr ⟨s, hs, rfl⟩)

/-- C7 witness: a subject whose deadline (day −5) is already in the past
still gets `days_left = 1`. -/
theorem C7_days_left_at_least_one_witness :
    ([Subject.mk "Late" 1 (-5) 40] : List Subject) ≠ [] ∧
    ∃ plan, generate_plan (fun _ _ => 2) 0 [Subject.mk "Late" 1 (-5) 40] = some plan ∧
      (∀ p ∈ plan, p.2.days_left = max 1 (p.2.deadline - 0) ∧ 1 ≤ p.2.days_left) ∧
      (∀ s ∈ [Subject.mk "Late" 1 (-5) 40], s.name ∈ plan.map Prod.fst) :=
  ⟨by decide, C7_days_left_at_least_one (fun _ _ => 2) 0 [Subject.mk "Late" 1 (-5) 40]
    (by decide)⟩

/-- C8 counterexample: the add operation performs no range check on marks —
`add subject Physics low 2024-01-01 150` succeeds and appends a subject with
marks 150, outside 0–100, refuting the claim as stated. -/
theorem C8_marks_range_counterexample :
    (add_subject_command (fun _ => some 0) (fun _ => some 150) DEFAULT_DIFF
      ["add", "subject", "Physics", "low", "2024-01-01", "150"] []).2 = AddOutcome.added ∧
    ∃ s ∈ (add_subject_command (fun _ => some 0) (fun _ => some 150) DEFAULT_DIFF
      ["add", "subject", "Physics", "low", "2024-01-01", "150"] []).1,
      ¬ (0 ≤ s.marks ∧ s.marks ≤ 100) := by
  decide

/-- C8 (amended): every subject successfully appended by the add operation
has marks equal to whatever integer the marks token parses to — any integer
is accepted; the 0–100 range of the data model is not enforced. -/
theorem C8_add_appends_any_marks (pd pi : String → Option Int)
    (dm : List (String × Int)) (a b name diffStr dateStr marksStr : String)
    (subs : List Subject) (dv dl mk : Int)
    (h1 : dm.lookup (strLower diffStr) = some dv) (h2 : pd dateStr = some dl)
    (h3 : pi marksStr = some mk) :
    add_subject_command pd pi dm [a, b, name, diffStr, dateStr, marksStr] subs =
      (subs ++ [Subject.mk name dv dl mk], AddOutcome.added) := by
  simp [add_subject_command, h1, h2, h3]

/-- C8 witness: the amended statement at marks token "150" (an out-of-range
integer), which is appended verbatim. -/
theorem C8_add_appends_any_marks_witness :
    DEFAULT_DIFF.lookup (strLower "low") = some 1 ∧
    add_subject_command (fun _ => some 0) (fun _ => some 150) DEFAULT_DIFF
      ["add", "subject", "Physics", "low", "2024-01-01", "150"] [] =
      ([Subject.mk "Physics" 1 0 150], AddOutcome.added) :=
  ⟨by decide, C8_add_appends_any_marks (fun _ => some 0) (fun _ => some 150)
    DEFAULT_DIFF "add" "subject" "Physics" "low" "2024-01-01" "150" [] 1 0 150
    (by decide) rfl rfl⟩

/-- C9: whenever the add operation fails (wrong argument count, unknown
difficulty token, unparsable date, unparsable marks) or the reschedule
operation fails (wrong count, unparsable date, subject not found), the
subject store is returned unchanged — no partial mutation on any error
path. -/
theorem C9_failed_commands_leave_store (pd pi : String → Option Int)
    (dm : List (String × Int)) (partsAdd partsRes : List String)
    (subs : List Subject) :
    ((add_subject_command pd pi dm partsAdd subs).2 ≠ AddOutcome.added →
      (add_subject_command pd pi dm partsAdd subs).1 = subs) ∧
    ((reschedule_subject pd partsRes subs).2 ≠ ResOutcome.rescheduled →
      (reschedule_subject pd partsRes subs).1 = subs) :=
  ⟨add_subject_frame pd pi dm partsAdd subs, reschedule_frame pd partsRes subs⟩

/-- C9 witness: a failing add (unknown difficulty token) and a failing
reschedule (subject not found) on a one-subject store leave it unchanged. -/
theorem C9_failed_commands_leave_store_witness :
    (add_subject_command (fun _ => none) (fun _ => none) DEFAULT_DIFF
      ["add", "subject", "Chem", "weird", "x", "y"] [Subject.mk "Chem" 1 5 50]).1 =
      [Subject.mk "Chem" 1 5 50] ∧
    (reschedule_subject (fun _ => some 9) ["reschedule", "Bio", "2024-05-05"]
      [Subject.mk "Chem" 1 5 50]).1 = [Subject.mk "Chem" 1 5 50] :=
  ⟨(C9_failed_commands_leave_store (fun _ => none) (fun _ => none) DEFAULT_DIFF
      ["add", "subject", "Chem", "weird", "x", "y"] ["reschedule", "Bio", "2024-05-05"]
      [Subject.mk "Chem" 1 5 50]).1 (by decide),
   (C9_failed_commands_leave_store (fun _ => none) (fun _ => none) DEFAULT_DIFF
      ["add", "subject", "Chem", "weird", "x", "y"] ["reschedule", "Bio", "2024-05-05"]
      [Subject.mk "Chem" 1 5 50]).2 (by decide)⟩

/-- C10: `rearrange_schedule` only touches deadlines — names, difficulties
and marks are unchanged position by position, and the list keeps its length
(and hence order). -/
theorem C10_resolve_frame (subs : List Subject) :
    (rearrange_schedule subs).map (fun s => s.name) = subs.map (fun s => s.name) ∧
    (rearrange_schedule subs).map (fun s => s.difficulty) =
      subs.map (fun s => s.difficulty) ∧
    (rearrange_schedule subs).map (fun s => s.marks) = subs.map (fun s => s.marks) ∧
    (rearrange_schedule subs).length = subs.length :=
  ⟨rearrange_map_field (fun s => s.name) (fun _ _ => rfl) subs,
   rearrange_map_field (fun s => s.difficulty) (fun _ _ => rfl) subs,
   rearrange_map_field (fun s => s.marks) (fun _ _ => rfl) subs,
   rearrange_schedule_length subs⟩

end StudyPlanner
